import Mathlib

set_option maxRecDepth 10000

/-!
Shallow embedding of the keyboard-music repository's note life-cycle and
waveform-synthesis core, translated from:
  src/keymaps.rs   (generate_maps and the key/note lookup tables)
  src/notes.rs     (Notes::update_keys, Notes::generate_audio, NoteState, lerp)
  src/wave/phase.rs, src/wave/sine.rs, src/wave/square.rs

Modelling conventions:
  - f32 values are modelled as exact rationals (ℚ); the transcendental sin
    function and the irrational constant TAU = 2*PI are kept as explicit
    parameters, since the properties verified here do not depend on their
    values.
  - Machine-integer arithmetic is modelled explicitly: Rust i8 arithmetic in a
    debug build aborts on overflow, so checked i8 operations return Option;
    the cast u8 as i8 wraps and the cast i8 as usize sign-extends (so a
    negative index becomes an enormous usize and indexing aborts).
  - Any indexing abort (out-of-bounds slice or Vec index) is modelled as the
    Option value none propagating out of the operation.
-/

/-- Rust i8 addition in a debug build: the program aborts on overflow,
modelled by returning none outside [-128, 127]. -/
def i8add (a b : Int) : Option Int :=
  let s := a + b
  if -128 ≤ s ∧ s ≤ 127 then some s else none

/-- Rust i8 subtraction in a debug build: none on overflow. -/
def i8sub (a b : Int) : Option Int :=
  let s := a - b
  if -128 ≤ s ∧ s ≤ 127 then some s else none

/-- The Rust cast u8 as i8: a wrapping cast, it never aborts. -/
def u8asI8 (n : Nat) : Int :=
  let m := n % 256
  if m ≤ 127 then (m : Int) else (m : Int) - 256

/-- Indexing a Rust Vec or slice at an index obtained from a signed value cast
as usize: a negative value sign-extends to an enormous usize, so any index
below zero or at or beyond the length is an out-of-bounds abort (none). -/
def idxLookup (l : List α) (i : Int) : Option α :=
  if i < 0 then none else l.get? i.toNat

/-- Writing index n of a Rust Vec: none when n is out of bounds (abort). -/
def idxSetN : List α → Nat → α → Option (List α)
  | [], _, _ => none
  | _ :: rest, 0, a => some (a :: rest)
  | x :: rest, n + 1, a => (idxSetN rest n a).map (x :: ·)

/-- Writing at an index obtained from a signed value cast as usize. -/
def idxSet (l : List α) (i : Int) (a : α) : Option (List α) :=
  if i < 0 then none else idxSetN l i.toNat a

/-! ## Key/note mapping builder (src/keymaps.rs) -/

/-- MidiNote is u8 in the source; MidiNote::MAX = 255 is used as the size of
both lookup tables built by generate_maps. -/
def midiNoteMax : Nat := 255

/-- How a generate_maps run can fail: a recoverable error returned through the
Result type (serde deserialization failure or an unrecognized key name, both
surfaced as the function's error value), or an index-out-of-bounds abort. -/
inductive GenErr
  | config
  | oob
deriving DecidableEq

/-- The serde_json deserialization of the keymap JSON object into
HashMap String (Option u8): succeeds iff every present pitch value fits in u8
(0..=255); any other value makes the whole deserialization fail. -/
def serdeOk (cfg : List (String × Option Int)) : Bool :=
  cfg.all fun e =>
    match e.2 with
    | none => true
    | some v => decide (0 ≤ v) && decide (v ≤ 255)

/-- Promoting an Option to a Result: a missing value becomes the given error
(the shape of the two failure points inside generate_maps). -/
def exceptOfOption (e : ε) : Option α → Except ε α
  | none => .error e
  | some a => .ok a

/-- First loop of generate_maps: for each (keycode_str, note) entry, parse the
key name with Keycode::from_str (an unrecognized name is propagated as the
function's error, the source's ? operator) and write note into key_to_note at
the parsed key code (out of bounds aborts). The recognizer for key names is
the external device_query crate, kept as the parameter parse. -/
def buildKeyToNote (parse : String → Option Nat) :
    List (String × Option Int) → List (Option Nat) → Except GenErr (List (Option Nat))
  | [], acc => .ok acc
  | (name, note) :: rest, acc =>
    (exceptOfOption GenErr.config (parse name)).bind fun kc =>
      (exceptOfOption GenErr.oob (idxSetN acc kc (note.map Int.toNat))).bind fun acc2 =>
        buildKeyToNote parse rest acc2

/-- note_to_key[p].push(kc): read the row at p, append kc, write it back;
out of bounds is an abort. -/
def pushAt (l : List (List Nat)) (p kc : Nat) : Option (List (List Nat)) :=
  (l.get? p).bind fun cur => idxSetN l p (cur ++ [kc])

/-- Second loop of generate_maps: for (keycode, note) in key_to_note.iter().enumerate(),
push keycode onto note_to_key[note] whenever note is present. -/
def buildNTKFrom : Nat → List (Option Nat) → List (List Nat) → Option (List (List Nat))
  | _, [], acc => some acc
  | kc, none :: rest, acc => buildNTKFrom (kc + 1) rest acc
  | kc, some p :: rest, acc =>
    (pushAt acc p kc).bind fun acc2 => buildNTKFrom (kc + 1) rest acc2

/-- generate_maps from src/keymaps.rs: deserialize the configuration, build
key_to_note (size MidiNote::MAX, initialized to None), then build note_to_key
(size MidiNote::MAX, initialized to empty rows) from key_to_note. -/
def generate_maps (parse : String → Option Nat) (cfg : List (String × Option Int)) :
    Except GenErr (List (Option Nat) × List (List Nat)) :=
  if serdeOk cfg then
    (buildKeyToNote parse cfg (List.replicate midiNoteMax none)).bind fun ktn =>
      (exceptOfOption GenErr.oob (buildNTKFrom 0 ktn (List.replicate midiNoteMax []))).map
        fun ntk => (ktn, ntk)
  else .error .config

/-! ## Note orchestrator (src/notes.rs) -/

/-- MAX_VOLUME from src/notes.rs. -/
def MAX_VOLUME : ℚ := 1 / 2

/-- MIDI_OFFSET from src/notes.rs (midi pitch of the 440 Hz reference). -/
def MIDI_OFFSET : Int := 69

/-- NoteState from src/notes.rs: the per-note life-cycle record. -/
structure NoteState where
  active : Bool
  phase : ℚ
  volume : ℚ
deriving DecidableEq

/-- NoteState::new. -/
def NoteState.new : NoteState :=
  { active := true, phase := 0, volume := 0 }

/-- lerp from src/notes.rs: the interpolation parameter is clamped to [0, 1]
before mixing. -/
def lerp (a b t : ℚ) : ℚ :=
  (1 - min (max t 0) 1) * a + min (max t 0) 1 * b

/-- NoteState::get_volume. -/
def NoteState.get_volume (st : NoteState) (t targetVolume : ℚ) : ℚ :=
  lerp st.volume targetVolume (t * 3)

/-- NoteState::get_target_volume. -/
def NoteState.get_target_volume (st : NoteState) (volumeRatio : ℚ) : ℚ :=
  if st.active then volumeRatio else 0

/-- The Notes struct from src/notes.rs. The HashMap i8 NoteState is modelled
as an association list whose keys are kept distinct. -/
structure Notes where
  notes : List (Int × NoteState)
  note_to_key : List (List Nat)
  key_to_note : List (Option Nat)
  base_factor : ℚ
  pitch_factor : ℚ
deriving DecidableEq

/-- The retain closure's liveness test in Notes::update_keys: look up
note_to_key[(rel_midi_note + MIDI_OFFSET) as usize] and ask whether any key
code listed there is contained in the snapshot. The i8 addition and the
indexing can abort (none). -/
def noteActive (ntk : List (List Nat)) (activeKeys : List Nat) (rel : Int) : Option Bool :=
  (i8add rel MIDI_OFFSET).bind fun s =>
    (idxLookup ntk s).map fun keycodes =>
      keycodes.any fun kc => activeKeys.contains kc

/-- The notes.retain call in Notes::update_keys: every entry has its active
flag recomputed and stored, and is kept iff it is still active or its volume
is positive. -/
def retainNotes (ntk : List (List Nat)) (activeKeys : List Nat) :
    List (Int × NoteState) → Option (List (Int × NoteState))
  | [] => some []
  | (rel, st) :: rest =>
    (noteActive ntk activeKeys rel).bind fun act =>
      (retainNotes ntk activeKeys rest).map fun rest2 =>
        if act || decide (0 < st.volume)
        then (rel, { st with active := act }) :: rest2
        else rest2

/-- The entry(..).and_modify(..).or_insert(..) call: flip the existing entry's
active flag to true, or insert a fresh NoteState. -/
def insertNote : List (Int × NoteState) → Int → List (Int × NoteState)
  | [], rel => [(rel, NoteState.new)]
  | (r, st) :: rest, rel =>
    if r = rel then (r, { st with active := true }) :: rest
    else (r, st) :: insertNote rest rel

/-- The second loop of Notes::update_keys: for every key code in the snapshot,
index key_to_note (aborting when the code is at or beyond the table length),
skip unmapped keys, and start or reactivate the mapped note. The pitch is
converted by the wrapping cast note as i8 followed by a checked i8
subtraction of MIDI_OFFSET. -/
def processKeys (ktn : List (Option Nat)) :
    List (Int × NoteState) → List Nat → Option (List (Int × NoteState))
  | l, [] => some l
  | l, k :: ks =>
    (idxLookup ktn (k : Int)).bind fun entry =>
      match entry with
      | none => processKeys ktn l ks
      | some note =>
        (i8sub (u8asI8 note) MIDI_OFFSET).bind fun rel =>
          processKeys ktn (insertNote l rel) ks

/-- Notes::update_keys from src/notes.rs: retain pass, then insertion pass. -/
def update_keys (s : Notes) (activeKeys : List Nat) : Option Notes :=
  (retainNotes s.note_to_key activeKeys s.notes).bind fun l =>
    (processKeys s.key_to_note l activeKeys).map fun l2 =>
      { s with notes := l2 }

/-- The divisor of the division performed unconditionally on the first line of
Notes::generate_audio (src/notes.rs line 67): the number of live notes. -/
def note_volume_ratio_divisor (s : Notes) : ℚ :=
  (s.notes.length : ℚ)

/-- note_volume_ratio: MAX_VOLUME / self.notes.len() as f32, computed before
the per-note loop on every generate_audio call. -/
def note_volume_ratio (s : Notes) : ℚ :=
  MAX_VOLUME / note_volume_ratio_divisor s

/-- Truncation toward zero, the rounding used by the Rust % operator on
floating-point values. -/
def ratTrunc (q : ℚ) : Int :=
  if 0 ≤ q then ⌊q⌋ else ⌈q⌉

/-- The Rust % remainder on floats: x - m * trunc (x / m). -/
def rustRem (x m : ℚ) : ℚ :=
  x - m * (ratTrunc (x / m) : ℚ)

/-- The wave factor of a note in Notes::generate_audio:
base_factor * pitch_factor.powf(rel_midi_note). -/
def noteWaveFactor (base pitch : ℚ) (rel : Int) : ℚ :=
  base * pitch ^ rel

/-- The inner sample loop of Notes::generate_audio for one note: every sample
accumulates the sine of the advancing phase scaled by the envelope gain. -/
def renderNoteBuf (sinQ : ℚ → ℚ) (waveFactor target : ℚ) (st : NoteState)
    (buf : List ℚ) : List ℚ :=
  buf.enum.map fun p =>
    p.2 + sinQ (st.phase + (p.1 : ℚ) * waveFactor)
          * st.get_volume ((p.1 : ℚ) / (buf.length : ℚ)) target

/-- The per-note commit at the end of the loop body of Notes::generate_audio:
set_volume(target_volume) and the phase update modulo TAU. -/
def noteCommit (tau waveFactor target : ℚ) (st : NoteState) (bufLen : ℚ) : NoteState :=
  { st with volume := target,
            phase := rustRem (st.phase + bufLen * waveFactor) tau }

/-- The per-note loop of Notes::generate_audio, processing the whole buffer
for one note and then committing that note's volume and phase. sinQ models
f32::sin and tau the f32 constant TAU. -/
def generateAudioGo (sinQ : ℚ → ℚ) (tau base pitch ratio : ℚ) :
    List (Int × NoteState) → List ℚ → List (Int × NoteState) × List ℚ
  | [], buf => ([], buf)
  | (rel, st) :: rest, buf =>
    let wf := noteWaveFactor base pitch rel
    let target := st.get_target_volume ratio
    let buf2 := renderNoteBuf sinQ wf target st buf
    let res := generateAudioGo sinQ tau base pitch ratio rest buf2
    ((rel, noteCommit tau wf target st (buf.length : ℚ)) :: res.1, res.2)

/-- Notes::generate_audio from src/notes.rs: compute the volume ratio once,
then accumulate every live note's wave into the buffer. -/
def generate_audio (sinQ : ℚ → ℚ) (tau : ℚ) (s : Notes) (buf : List ℚ) :
    Notes × List ℚ :=
  let ratio := note_volume_ratio s
  let res := generateAudioGo sinQ tau s.base_factor s.pitch_factor ratio s.notes buf
  ({ s with notes := res.1 }, res.2)

/-! ## Phase accumulator and waveforms (src/wave/) -/

/-- PITCH_FACTOR from src/wave/mod.rs (the literal written in the source for
the 12th root of 2). -/
def PITCH_FACTOR : ℚ := 1.0594630943592953

/-- The Phase struct from src/wave/phase.rs. note_phases is [f32; u8::MAX as usize],
an array of length 255. -/
structure Phase where
  current_note : Int
  current_phase : ℚ
  note_phases : List ℚ
  base_factor : ℚ
  wave_factor : ℚ
deriving DecidableEq

/-- Phase::note_idx: (rel_midi_note + i8::MAX) as usize. The addition is done
in i8 arithmetic, so it aborts on overflow (debug build) or wraps to a
negative value whose usize cast is out of bounds (release build); both are
modelled as none, threaded through the indexing helpers. -/
def Phase.note_idx (rel : Int) : Option Int :=
  i8add rel 127

/-- Phase::new at a given base factor (FREQ_FACTOR / sample_rate, kept as a
parameter since FREQ_FACTOR is irrational). -/
def Phase.new (baseFactor : ℚ) : Phase :=
  { current_note := 0, current_phase := 0,
    note_phases := List.replicate 255 0,
    base_factor := baseFactor, wave_factor := 0 }

/-- Phase::before: compute the wave factor for the note, load its stored
phase into current_phase and remember the note. -/
def Phase.before (p : Phase) (rel : Int) : Option Phase :=
  match Phase.note_idx rel with
  | none => none
  | some i =>
    match idxLookup p.note_phases i with
    | none => none
    | some ph =>
      some { p with wave_factor := p.base_factor * PITCH_FACTOR ^ rel,
                    current_phase := ph,
                    current_note := rel }

/-- Phase::next: a pure function of the sample offset given the loaded state. -/
def Phase.next (p : Phase) (sampleIdx : ℚ) : ℚ :=
  p.current_phase + sampleIdx * p.wave_factor

/-- Phase::after: commit the current note's phase as next(buf_len) % TAU. -/
def Phase.after (tau : ℚ) (p : Phase) (bufLen : ℚ) : Option Phase :=
  match Phase.note_idx p.current_note with
  | none => none
  | some i =>
    match idxSet p.note_phases i (rustRem (p.next bufLen) tau) with
    | none => none
    | some l => some { p with note_phases := l }

/-- Phase::clear: reset the stored phase of a note to zero. -/
def Phase.clear (p : Phase) (rel : Int) : Option Phase :=
  match Phase.note_idx rel with
  | none => none
  | some i =>
    match idxSet p.note_phases i 0 with
    | none => none
    | some l => some { p with note_phases := l }

/-- The Sine wave from src/wave/sine.rs, a thin wrapper over Phase. -/
structure Sine where
  phase : Phase
deriving DecidableEq

/-- Sine::next: the sine of the continuous phase at the given offset. -/
def Sine.next (sinQ : ℚ → ℚ) (s : Sine) (sampleIdx : ℚ) : ℚ :=
  sinQ (s.phase.next sampleIdx)

/-- The Square wave from src/wave/square.rs. -/
structure Square where
  sine : Sine
deriving DecidableEq

/-- Square::AMP. -/
def Square.AMP : ℚ := 1 / 2

/-- Square::next: the sign of the underlying sine value scaled to ±AMP, with
0 mapped to exactly 0. -/
def Square.next (sinQ : ℚ → ℚ) (sq : Square) (sampleIdx : ℚ) : ℚ :=
  if sq.sine.next sinQ sampleIdx < 0 then -Square.AMP
  else if 0 < sq.sine.next sinQ sampleIdx then Square.AMP
  else 0

/-! ## Derived notions and concrete states used by the verification -/

/-- Key code k maps, through key_to_note and the i8 pitch conversion performed
by the insertion loop of Notes::update_keys, to the relative note rel. -/
def keyMapsTo (ktn : List (Option Nat)) (k : Nat) (rel : Int) : Prop :=
  ∃ p, idxLookup ktn (k : Int) = some (some p) ∧ i8sub (u8asI8 p) MIDI_OFFSET = some rel

/-- Well-formedness of the two lookup tables with respect to a snapshot: every
pressed key that key_to_note maps to a relative note also appears in the
note_to_key row of that relative note (the consistency generate_maps
establishes for the codes it accepts). -/
def keyConsistent (ktn : List (Option Nat)) (ntk : List (List Nat))
    (keys : List Nat) : Prop :=
  ∀ k ∈ keys, ∀ rel : Int, keyMapsTo ktn k rel →
    ∃ s row, i8add rel MIDI_OFFSET = some s ∧ idxLookup ntk s = some row ∧ k ∈ row

/-- The key codes (counted from kc upward) that the tail of key_to_note maps
to pitch p, in ascending order: the rows buildNTKFrom appends. -/
def collect : Nat → List (Option Nat) → Nat → List Nat
  | _, [], _ => []
  | kc, none :: rest, p => collect (kc + 1) rest p
  | kc, some q :: rest, p =>
    if q = p then kc :: collect (kc + 1) rest p else collect (kc + 1) rest p

/-- Whether an Except value is the success case. -/
def exceptIsOk : Except ε α → Bool
  | .ok _ => true
  | .error _ => false

/-- A concrete model of the external Keycode::from_str recognizer that knows
the single key name A, with key code 10. -/
def parse0 : String → Option Nat :=
  fun s => if s = "A" then some 10 else none

/-- The Notes state as Notes::new builds it from an empty keymap: both tables
have length MidiNote::MAX = 255 and the note map is empty. -/
def exNotes : Notes :=
  { notes := [],
    note_to_key := List.replicate midiNoteMax [],
    key_to_note := List.replicate midiNoteMax none,
    base_factor := 1, pitch_factor := 1 }

/-- Lookup tables for a one-entry keymap: key code 10 maps to pitch 60
(relative note -9), exactly as generate_maps would build them. -/
def exKtn : List (Option Nat) :=
  (List.replicate midiNoteMax none).set 10 (some 60)

/-- The matching note_to_key table: pitch 60 is triggered by key code 10. -/
def exNtk : List (List Nat) :=
  (List.replicate midiNoteMax []).set 60 [10]

/-- A state holding one note (pitch 60, relative note -9) that is fading out:
inactive, volume still positive, oscillator mid-cycle. -/
def exFading : Notes :=
  { notes := [(-9, { active := false, phase := 5, volume := 1 })],
    note_to_key := exNtk, key_to_note := exKtn,
    base_factor := 1, pitch_factor := 1 }

/-- The state exFading reaches when key 10 is pressed again. -/
def exC4res : Notes :=
  { exFading with notes := [(-9, { active := true, phase := 5, volume := 1 })] }

/-- A state with two fully active notes at equal volume. -/
def exTwo : Notes :=
  { notes := [(-9, { active := true, phase := 0, volume := 1 / 4 }),
              (0, { active := true, phase := 2, volume := 1 / 4 })],
    note_to_key := exNtk, key_to_note := exKtn,
    base_factor := 1, pitch_factor := 1 }

/-! ## General helper lemmas -/

theorem list_sum_map_const {α : Type} {l : List α} {f : α → ℚ} {c : ℚ}
    (h : ∀ x ∈ l, f x = c) : (l.map f).sum = l.length * c := by
  induction l with
  | nil => simp
  | cons a as ih =>
    simp only [List.map_cons, List.sum_cons, List.length_cons]
    rw [h a (by simp), ih fun x hx => h x (by simp [hx])]
    push_cast
    ring

theorem generateAudioGo_volumes (sinQ : ℚ → ℚ) (tau base pitch ratio : ℚ) :
    ∀ (l : List (Int × NoteState)) (buf : List ℚ),
      ((generateAudioGo sinQ tau base pitch ratio l buf).1.map fun e => e.2.volume)
        = l.map fun e => e.2.get_target_volume ratio := by
  intro l
  induction l with
  | nil => intro buf; rfl
  | cons x xs ih =>
    intro buf
    obtain ⟨rel, st⟩ := x
    simp only [generateAudioGo, List.map_cons]
    exact congrArg₂ _ rfl (ih _)

/-! ## Claim theorems -/

/-- C1 (code bug): the claim says every snapshot of 8-bit key ids is handled
by update_keys without a runtime error, unmapped or unrecognized ids being
silently ignored. The tables generate_maps builds have length
MidiNote::MAX = 255, so the spurious (unmapped) key id 255 makes
key_to_note[255] an out-of-bounds index and update_keys aborts — while the
in-range unmapped id 254 is indeed silently ignored, leaving the state
untouched. -/
theorem C1_key255_aborts :
    update_keys exNotes [255] = none ∧ update_keys exNotes [254] = some exNotes := by
  constructor <;> rfl

/-- C3 (confirmed): in a generate_audio call over a buffer of length bufLen,
the envelope gain applied at sample position idx is
lerp(stored volume, target, (idx / bufLen) * 3 clamped to [0,1]); at sample
offset 0 it equals the stored volume exactly, and whenever bufLen / 3 ≤ idx
it equals the target volume exactly. -/
theorem C3_envelope_gain (st : NoteState) (target bufLen idx : ℚ)
    (hL : 0 < bufLen) (hidx : 0 ≤ idx) :
    st.get_volume (idx / bufLen) target = lerp st.volume target (idx / bufLen * 3)
    ∧ st.get_volume (0 / bufLen) target = st.volume
    ∧ (bufLen / 3 ≤ idx → st.get_volume (idx / bufLen) target = target) := by
  refine ⟨rfl, ?_, ?_⟩
  · unfold NoteState.get_volume lerp
    norm_num
  · intro h
    have h3 : 1 ≤ idx / bufLen * 3 := by
      rw [div_mul_eq_mul_div, le_div_iff₀ hL, one_mul]
      linarith
    unfold NoteState.get_volume lerp
    rw [max_eq_left (by linarith : (0 : ℚ) ≤ idx / bufLen * 3), min_eq_right h3]
    ring

/-- Witness for C3 at a concrete note (stored volume 1/4), target 1/8,
buffer length 3 and sample index 1. -/
theorem C3_envelope_gain_witness :
    (NoteState.mk true 0 (1/4)).get_volume (1 / 3) (1/8)
        = lerp (NoteState.mk true 0 (1/4)).volume (1/8) (1 / 3 * 3)
    ∧ (NoteState.mk true 0 (1/4)).get_volume (0 / 3) (1/8)
        = (NoteState.mk true 0 (1/4)).volume
    ∧ ((3 : ℚ) / 3 ≤ 1 →
        (NoteState.mk true 0 (1/4)).get_volume (1 / 3) (1/8) = 1/8) :=
  C3_envelope_gain (NoteState.mk true 0 (1/4)) (1/8) 3 1 (by decide) (by decide)

/-- C5 (code bug): the claim describes Phase::next and Phase::after for every
note, but Phase::note_idx computes rel_midi_note + i8::MAX in i8 arithmetic,
which overflows for every positive relative note (debug build aborts; release
wraps negative and the usize cast sign-extends out of bounds). Evaluated at
relative note 1 (pitch 70), before, after and clear all abort. -/
theorem C5_note_idx_overflow :
    Phase.before (Phase.new 1) 1 = none
    ∧ Phase.after 7 { Phase.new 1 with current_note := 1 } 64 = none
    ∧ Phase.clear (Phase.new 1) 1 = none :=
  ⟨rfl, rfl, rfl⟩

/-- C8 (confirmed): Square::next returns exactly one of {-AMP, 0, AMP}, and
matches the sign of the underlying sine value, 0 mapping to exactly 0
(src/wave/square.rs). -/
theorem C8_square_sign (sinQ : ℚ → ℚ) (sq : Square) (sampleIdx : ℚ) :
    (Square.next sinQ sq sampleIdx = -Square.AMP ∨ Square.next sinQ sq sampleIdx = 0 ∨
      Square.next sinQ sq sampleIdx = Square.AMP)
    ∧ (Square.next sinQ sq sampleIdx = -Square.AMP ↔ sq.sine.next sinQ sampleIdx < 0)
    ∧ (Square.next sinQ sq sampleIdx = Square.AMP ↔ 0 < sq.sine.next sinQ sampleIdx)
    ∧ (Square.next sinQ sq sampleIdx = 0 ↔ sq.sine.next sinQ sampleIdx = 0) := by
  unfold Square.next
  rcases lt_trichotomy (sq.sine.next sinQ sampleIdx) 0 with h | h | h
  · rw [if_pos h]
    refine ⟨Or.inl rfl, iff_of_true rfl h, ?_, ?_⟩
    · exact iff_of_false (by norm_num [Square.AMP]) (by linarith)
    · exact iff_of_false (by norm_num [Square.AMP]) (by linarith)
  · rw [if_neg (by simp [h]), if_neg (by simp [h])]
    refine ⟨Or.inr (Or.inl rfl), ?_, ?_, iff_of_true rfl h⟩
    · exact iff_of_false (by norm_num [Square.AMP]) (by simp [h])
    · exact iff_of_false (by norm_num [Square.AMP]) (by simp [h])
  · rw [if_neg (by linarith), if_pos h]
    refine ⟨Or.inr (Or.inr rfl), ?_, iff_of_true rfl h, ?_⟩
    · exact iff_of_false (by norm_num [Square.AMP]) (by linarith)
    · exact iff_of_false (by norm_num [Square.AMP]) (by linarith)

/-- C9 counterexample: the claim says the target-volume division by zero is
never reached when the note map is empty, but Notes::generate_audio evaluates
MAX_VOLUME / notes.len() unconditionally before the per-note loop, so on an
empty map the division is evaluated with divisor exactly 0 (harmless in f32,
where it yields infinity that is never used). -/
theorem C9_division_reached :
    note_volume_ratio_divisor exNotes = 0
    ∧ note_volume_ratio exNotes = MAX_VOLUME / 0 := by
  constructor
  · simp [note_volume_ratio_divisor, exNotes]
  · simp [note_volume_ratio, note_volume_ratio_divisor, exNotes]

/-- C9 (amended): with zero live notes, generate_audio is a no-op: the
per-note loop body never executes, a pre-zeroed buffer is left untouched and
the note map is still empty afterwards (while the target-volume division is
evaluated with divisor 0, its result is unused). -/
theorem C9_empty_noop (sinQ : ℚ → ℚ) (tau : ℚ) (s : Notes) (buf : List ℚ)
    (h : s.notes = []) :
    generate_audio sinQ tau s buf = (s, buf) := by
  cases s with
  | mk n ntk ktn bf pf =>
    obtain rfl : n = [] := h
    rfl

/-- Witness for C9 on the empty state and a zeroed three-sample buffer. -/
theorem C9_empty_noop_witness :
    generate_audio (fun _ => 0) 7 exNotes [0, 0, 0] = (exNotes, [0, 0, 0]) :=
  C9_empty_noop (fun _ => 0) 7 exNotes [0, 0, 0] rfl

/-- C2 (confirmed): on a state with N ≥ 1 live notes, all active, every note's
target volume in generate_audio equals MAX_VOLUME / N, the targets sum to
MAX_VOLUME exactly, and after the call the committed per-note volumes also
sum to MAX_VOLUME. -/
theorem C2_polyphony_normalization (sinQ : ℚ → ℚ) (tau : ℚ) (s : Notes) (buf : List ℚ)
    (hact : ∀ e ∈ s.notes, e.2.active = true) (hne : s.notes ≠ []) :
    (∀ e ∈ s.notes,
        e.2.get_target_volume (note_volume_ratio s) = MAX_VOLUME / (s.notes.length : ℚ))
    ∧ (s.notes.map fun e => e.2.get_target_volume (note_volume_ratio s)).sum = MAX_VOLUME
    ∧ ((generate_audio sinQ tau s buf).1.notes.map fun e => e.2.volume).sum = MAX_VOLUME := by
  have hlen : ((s.notes.length : ℚ)) ≠ 0 := by
    have h0 : s.notes.length ≠ 0 := by
      simpa [List.length_eq_zero] using hne
    exact_mod_cast h0
  have h1 : ∀ e ∈ s.notes,
      e.2.get_target_volume (note_volume_ratio s) = MAX_VOLUME / (s.notes.length : ℚ) := by
    intro e he
    rw [NoteState.get_target_volume, if_pos (hact e he)]
    rfl
  have hsum : (s.notes.map fun e =>
      e.2.get_target_volume (note_volume_ratio s)).sum = MAX_VOLUME := by
    rw [list_sum_map_const h1, mul_comm, div_mul_cancel₀ _ hlen]
  refine ⟨h1, hsum, ?_⟩
  have hnotes : (generate_audio sinQ tau s buf).1.notes
      = (generateAudioGo sinQ tau s.base_factor s.pitch_factor
          (note_volume_ratio s) s.notes buf).1 := rfl
  rw [hnotes, generateAudioGo_volumes]
  exact hsum

/-- Witness for C2 on a state with two active notes: each target is
(1/2) / 2 = 1/4 and the targets sum to 1/2. -/
theorem C2_polyphony_normalization_witness :
    (∀ e ∈ exTwo.notes,
        e.2.get_target_volume (note_volume_ratio exTwo) = MAX_VOLUME / (exTwo.notes.length : ℚ))
    ∧ (exTwo.notes.map fun e => e.2.get_target_volume (note_volume_ratio exTwo)).sum = MAX_VOLUME
    ∧ ((generate_audio (fun _ => 0) 7 exTwo []).1.notes.map fun e => e.2.volume).sum
        = MAX_VOLUME :=
  C2_polyphony_normalization (fun _ => 0) 7 exTwo [] (by decide) (by decide)

/-! ## Lemmas about the update_keys passes -/

theorem assoc_unique :
    ∀ {l : List (Int × NoteState)}, (l.map Prod.fst).Nodup →
      ∀ {r : Int} {a b : NoteState}, (r, a) ∈ l → (r, b) ∈ l → a = b := by
  intro l
  induction l with
  | nil => intro _ _ _ _ ha; cases ha
  | cons x xs ih =>
    intro h r a b ha hb
    obtain ⟨xr, xst⟩ := x
    rw [List.map_cons, List.nodup_cons] at h
    rcases List.mem_cons.mp ha with ha1 | ha1 <;> rcases List.mem_cons.mp hb with hb1 | hb1
    · injection ha1 with ha2 ha3
      injection hb1 with hb2 hb3
      rw [ha3, hb3]
    · injection ha1 with ha2 ha3
      exact absurd (by rw [← ha2]; exact List.mem_map.mpr ⟨(r, b), hb1, rfl⟩) h.1
    · injection hb1 with hb2 hb3
      exact absurd (by rw [← hb2]; exact List.mem_map.mpr ⟨(r, a), ha1, rfl⟩) h.1
    · exact ih h.2 ha1 hb1

theorem insertNote_fst :
    ∀ (l : List (Int × NoteState)) (rel : Int),
      (insertNote l rel).map Prod.fst =
        if rel ∈ l.map Prod.fst then l.map Prod.fst else l.map Prod.fst ++ [rel] := by
  intro l
  induction l with
  | nil => intro rel; simp [insertNote]
  | cons x xs ih =>
    intro rel
    obtain ⟨r, st⟩ := x
    by_cases hr : r = rel
    · subst hr
      simp [insertNote]
    · simp only [insertNote, if_neg hr, List.map_cons, ih rel]
      by_cases hm : rel ∈ xs.map Prod.fst
      · rw [if_pos hm, if_pos (by simp [hm])]
      · have hnc : ¬ rel ∈ r :: List.map Prod.fst xs := by
          rw [List.mem_cons]
          rintro (h | h)
          · exact hr h.symm
          · exact hm h
        rw [if_neg hm, if_neg hnc, List.cons_append]

theorem insertNote_mem_fst (l : List (Int × NoteState)) (rel r : Int) :
    r ∈ (insertNote l rel).map Prod.fst ↔ r ∈ l.map Prod.fst ∨ r = rel := by
  rw [insertNote_fst]
  by_cases hm : rel ∈ l.map Prod.fst
  · rw [if_pos hm]
    constructor
    · exact Or.inl
    · rintro (h | rfl)
      · exact h
      · exact hm
  · rw [if_neg hm]
    simp

theorem insertNote_nodup {l : List (Int × NoteState)} (h : (l.map Prod.fst).Nodup)
    (rel : Int) : ((insertNote l rel).map Prod.fst).Nodup := by
  rw [insertNote_fst]
  by_cases hm : rel ∈ l.map Prod.fst
  · rwa [if_pos hm]
  · rw [if_neg hm, List.nodup_append]
    refine ⟨h, List.nodup_singleton rel, fun a ha hb => ?_⟩
    rw [List.mem_singleton] at hb
    exact hm (hb ▸ ha)

theorem insertNote_cases :
    ∀ {l : List (Int × NoteState)} {rel : Int} {e : Int × NoteState},
      e ∈ insertNote l rel →
        e ∈ l
        ∨ (∃ st, (e.1, st) ∈ l ∧ e.2 = { st with active := true })
        ∨ (e = (rel, NoteState.new) ∧ rel ∉ l.map Prod.fst) := by
  intro l
  induction l with
  | nil =>
    intro rel e he
    simp only [insertNote, List.mem_singleton] at he
    exact Or.inr (Or.inr ⟨he, by simp⟩)
  | cons x xs ih =>
    intro rel e he
    obtain ⟨r, st⟩ := x
    by_cases hr : r = rel
    · subst hr
      rw [insertNote, if_pos rfl] at he
      rcases List.mem_cons.mp he with he1 | he1
      · subst he1
        exact Or.inr (Or.inl ⟨st, List.mem_cons_self _ _, rfl⟩)
      · exact Or.inl (List.mem_cons_of_mem _ he1)
    · rw [insertNote, if_neg hr] at he
      rcases List.mem_cons.mp he with he1 | he1
      · exact Or.inl (he1 ▸ List.mem_cons_self _ _)
      · rcases ih he1 with h1 | h1 | h1
        · exact Or.inl (List.mem_cons_of_mem _ h1)
        · obtain ⟨st1, hst1, hst2⟩ := h1
          exact Or.inr (Or.inl ⟨st1, List.mem_cons_of_mem _ hst1, hst2⟩)
        · obtain ⟨h1, h2⟩ := h1
          refine Or.inr (Or.inr ⟨h1, ?_⟩)
          rw [List.map_cons, List.mem_cons]
          rintro (h3 | h3)
          · exact hr h3.symm
          · exact h2 h3

theorem insertNote_mem_of_mem :
    ∀ {l : List (Int × NoteState)}, (l.map Prod.fst).Nodup →
      ∀ {r : Int} {st : NoteState}, (r, st) ∈ l → ∀ rel : Int,
        (r, if r = rel then { st with active := true } else st) ∈ insertNote l rel := by
  intro l
  induction l with
  | nil => intro _ _ _ h; cases h
  | cons x xs ih =>
    intro hnd r st hmem rel
    obtain ⟨xr, xst⟩ := x
    rw [List.map_cons, List.nodup_cons] at hnd
    rcases List.mem_cons.mp hmem with h1 | h1
    · injection h1 with h1a h1b
      subst h1a
      subst h1b
      by_cases hr : r = rel
      · subst hr
        rw [insertNote, if_pos rfl, if_pos rfl]
        exact List.mem_cons_self _ _
      · rw [insertNote, if_neg hr, if_neg hr]
        exact List.mem_cons_self _ _
    · by_cases hxr : xr = rel
      · subst hxr
        rw [insertNote, if_pos rfl]
        have hne : r ≠ xr := fun h => hnd.1 (h ▸ List.mem_map.mpr ⟨(r, st), h1, rfl⟩)
        rw [if_neg hne]
        exact List.mem_cons_of_mem _ h1
      · rw [insertNote, if_neg hxr]
        exact List.mem_cons_of_mem _ (ih hnd.2 h1 rel)

theorem keyMapsTo_iff {ktn : List (Option Nat)} {k note : Nat}
    (h1 : idxLookup ktn (k : Int) = some (some note)) {rel : Int}
    (h2 : i8sub (u8asI8 note) MIDI_OFFSET = some rel) :
    ∀ r, keyMapsTo ktn k r ↔ r = rel := by
  intro r
  constructor
  · rintro ⟨p, hp1, hp2⟩
    rw [h1] at hp1
    injection hp1 with hp1
    injection hp1 with hp1
    subst hp1
    rw [h2] at hp2
    injection hp2 with hp2
    exact hp2.symm
  · rintro rfl
    exact ⟨note, h1, h2⟩

theorem keyMapsTo_unmapped {ktn : List (Option Nat)} {k : Nat}
    (h : idxLookup ktn (k : Int) = some none) : ∀ r, ¬ keyMapsTo ktn k r := by
  rintro r ⟨p, hp1, hp2⟩
  rw [h] at hp1
  injection hp1 with hp1
  cases hp1

theorem NoteState.eq_of_fields {s t : NoteState} (h1 : s.active = t.active)
    (h2 : s.phase = t.phase) (h3 : s.volume = t.volume) : s = t := by
  cases s
  cases t
  simp_all

theorem retainNotes_mem {ntk : List (List Nat)} {keys : List Nat} :
    ∀ {l l' : List (Int × NoteState)}, retainNotes ntk keys l = some l' →
      ∀ e ∈ l', ∃ st b, (e.1, st) ∈ l ∧ noteActive ntk keys e.1 = some b ∧
        e.2 = { st with active := b } ∧ (b = true ∨ 0 < st.volume) := by
  intro l
  induction l with
  | nil =>
    intro l' h e he
    replace h : some [] = some l' := h
    injection h with h
    subst h
    cases he
  | cons x xs ih =>
    intro l' h e he
    obtain ⟨rel, st⟩ := x
    simp only [retainNotes] at h
    rw [Option.bind_eq_some] at h
    obtain ⟨act, hact, h⟩ := h
    rw [Option.map_eq_some'] at h
    obtain ⟨rest2, hrest, h⟩ := h
    by_cases hc : (act || decide (0 < st.volume)) = true
    · rw [if_pos hc] at h
      subst h
      rcases List.mem_cons.mp he with he1 | he1
      · subst he1
        refine ⟨st, act, List.mem_cons_self _ _, hact, rfl, ?_⟩
        rcases (by simpa using hc : act = true ∨ 0 < st.volume) with h2 | h2
        · exact Or.inl h2
        · exact Or.inr h2
      · obtain ⟨st1, b1, hm, hact1, hval, hcond⟩ := ih hrest e he1
        exact ⟨st1, b1, List.mem_cons_of_mem _ hm, hact1, hval, hcond⟩
    · rw [if_neg hc] at h
      subst h
      obtain ⟨st1, b1, hm, hact1, hval, hcond⟩ := ih hrest e he
      exact ⟨st1, b1, List.mem_cons_of_mem _ hm, hact1, hval, hcond⟩

theorem retainNotes_keep {ntk : List (List Nat)} {keys : List Nat} :
    ∀ {l l' : List (Int × NoteState)}, retainNotes ntk keys l = some l' →
      ∀ {rel : Int} {st : NoteState} {b : Bool}, (rel, st) ∈ l →
        noteActive ntk keys rel = some b → (b = true ∨ 0 < st.volume) →
        (rel, { st with active := b }) ∈ l' := by
  intro l
  induction l with
  | nil => intro l' h rel st b hmem; cases hmem
  | cons x xs ih =>
    intro l' h rel st b hmem hact hcond
    obtain ⟨xr, xst⟩ := x
    simp only [retainNotes] at h
    rw [Option.bind_eq_some] at h
    obtain ⟨act, hact2, h⟩ := h
    rw [Option.map_eq_some'] at h
    obtain ⟨rest2, hrest, h⟩ := h
    subst h
    rcases List.mem_cons.mp hmem with h1 | h1
    · injection h1 with h1a h1b
      subst h1a
      subst h1b
      rw [hact] at hact2
      injection hact2 with hact2
      subst hact2
      have hc : (b || decide (0 < st.volume)) = true := by
        rcases hcond with h2 | h2
        · simp [h2]
        · simp [h2]
      rw [if_pos hc]
      exact List.mem_cons_self _ _
    · have htail := ih hrest h1 hact hcond
      by_cases hc : (act || decide (0 < xst.volume)) = true
      · rw [if_pos hc]
        exact List.mem_cons_of_mem _ htail
      · rw [if_neg hc]
        exact htail

theorem retainNotes_active_some {ntk : List (List Nat)} {keys : List Nat} :
    ∀ {l l' : List (Int × NoteState)}, retainNotes ntk keys l = some l' →
      ∀ e ∈ l, ∃ b, noteActive ntk keys e.1 = some b := by
  intro l
  induction l with
  | nil => intro l' _ e he; cases he
  | cons x xs ih =>
    intro l' h e he
    obtain ⟨xr, xst⟩ := x
    simp only [retainNotes] at h
    rw [Option.bind_eq_some] at h
    obtain ⟨act, hact, h⟩ := h
    rw [Option.map_eq_some'] at h
    obtain ⟨rest2, hrest, h⟩ := h
    rcases List.mem_cons.mp he with he1 | he1
    · subst he1
      exact ⟨act, hact⟩
    · exact ih hrest e he1

theorem retainNotes_sub_fst {ntk : List (List Nat)} {keys : List Nat}
    {l l' : List (Int × NoteState)} (h : retainNotes ntk keys l = some l') :
    ∀ r ∈ l'.map Prod.fst, r ∈ l.map Prod.fst := by
  intro r hr
  rw [List.mem_map] at hr
  obtain ⟨e, he, rfl⟩ := hr
  obtain ⟨st, b, hm, _, _, _⟩ := retainNotes_mem h e he
  exact List.mem_map.mpr ⟨(e.1, st), hm, rfl⟩

theorem retainNotes_nodup {ntk : List (List Nat)} {keys : List Nat} :
    ∀ {l l' : List (Int × NoteState)}, retainNotes ntk keys l = some l' →
      (l.map Prod.fst).Nodup → (l'.map Prod.fst).Nodup := by
  intro l
  induction l with
  | nil =>
    intro l' h _
    replace h : some [] = some l' := h
    injection h with h
    subst h
    exact List.nodup_nil
  | cons x xs ih =>
    intro l' h hnd
    obtain ⟨xr, xst⟩ := x
    rw [List.map_cons, List.nodup_cons] at hnd
    simp only [retainNotes] at h
    rw [Option.bind_eq_some] at h
    obtain ⟨act, hact, h⟩ := h
    rw [Option.map_eq_some'] at h
    obtain ⟨rest2, hrest, h⟩ := h
    subst h
    by_cases hc : (act || decide (0 < xst.volume)) = true
    · rw [if_pos hc, List.map_cons, List.nodup_cons]
      exact ⟨fun hin => hnd.1 (retainNotes_sub_fst hrest xr hin), ih hrest hnd.2⟩
    · rw [if_neg hc]
      exact ih hrest hnd.2

theorem processKeys_mem_fst {ktn : List (Option Nat)} :
    ∀ {ks : List Nat} {l l' : List (Int × NoteState)}, processKeys ktn l ks = some l' →
      ∀ r : Int, r ∈ l'.map Prod.fst ↔ r ∈ l.map Prod.fst ∨ ∃ k ∈ ks, keyMapsTo ktn k r := by
  intro ks
  induction ks with
  | nil =>
    intro l l' h r
    replace h : some l = some l' := h
    injection h with h
    subst h
    simp
  | cons k ks ih =>
    intro l l' h r
    simp only [processKeys] at h
    rw [Option.bind_eq_some] at h
    obtain ⟨entry, hent, h⟩ := h
    cases entry with
    | none =>
      replace h : processKeys ktn l ks = some l' := h
      rw [ih h r]
      apply or_congr_right
      constructor
      · rintro ⟨k1, hk1, hm⟩
        exact ⟨k1, List.mem_cons_of_mem _ hk1, hm⟩
      · rintro ⟨k1, hk1, hm⟩
        rcases List.mem_cons.mp hk1 with rfl | hk1
        · exact absurd hm (keyMapsTo_unmapped hent r)
        · exact ⟨k1, hk1, hm⟩
    | some note =>
      replace h : (i8sub (u8asI8 note) MIDI_OFFSET).bind
          (fun rel => processKeys ktn (insertNote l rel) ks) = some l' := h
      rw [Option.bind_eq_some] at h
      obtain ⟨rel, hrel, h⟩ := h
      rw [ih h r, insertNote_mem_fst]
      have hk := keyMapsTo_iff hent hrel
      constructor
      · rintro ((h1 | rfl) | ⟨k1, hk1, hm⟩)
        · exact Or.inl h1
        · exact Or.inr ⟨k, List.mem_cons_self _ _, (hk _).mpr rfl⟩
        · exact Or.inr ⟨k1, List.mem_cons_of_mem _ hk1, hm⟩
      · rintro (h1 | ⟨k1, hk1, hm⟩)
        · exact Or.inl (Or.inl h1)
        · rcases List.mem_cons.mp hk1 with rfl | hk1
          · exact Or.inl (Or.inr ((hk r).mp hm))
          · exact Or.inr ⟨k1, hk1, hm⟩

theorem processKeys_mem {ktn : List (Option Nat)} :
    ∀ {ks : List Nat} {l l' : List (Int × NoteState)}, processKeys ktn l ks = some l' →
      ∀ e ∈ l',
        (∃ st, (e.1, st) ∈ l ∧ e.2.volume = st.volume ∧ e.2.phase = st.phase ∧
          (st.active = true → e.2.active = true))
        ∨ (e.2 = NoteState.new ∧ e.1 ∉ l.map Prod.fst) := by
  intro ks
  induction ks with
  | nil =>
    intro l l' h e he
    replace h : some l = some l' := h
    injection h with h
    subst h
    exact Or.inl ⟨e.2, by rw [Prod.mk.eta]; exact he, rfl, rfl, fun h => h⟩
  | cons k ks ih =>
    intro l l' h e he
    simp only [processKeys] at h
    rw [Option.bind_eq_some] at h
    obtain ⟨entry, hent, h⟩ := h
    cases entry with
    | none =>
      replace h : processKeys ktn l ks = some l' := h
      exact ih h e he
    | some note =>
      replace h : (i8sub (u8asI8 note) MIDI_OFFSET).bind
          (fun rel => processKeys ktn (insertNote l rel) ks) = some l' := h
      rw [Option.bind_eq_some] at h
      obtain ⟨rel, hrel, h⟩ := h
      rcases ih h e he with ⟨st1, hst1, hv, hp, ha⟩ | ⟨hnew, hnot⟩
      · rcases insertNote_cases hst1 with h1 | ⟨st0, hst0, heq⟩ | ⟨heq, hnotin⟩
        · exact Or.inl ⟨st1, h1, hv, hp, ha⟩
        · dsimp only at hst0 heq
          refine Or.inl ⟨st0, hst0, ?_, ?_, ?_⟩
          · rw [hv, heq]
          · rw [hp, heq]
          · intro _
            exact ha (by rw [heq])
        · injection heq with heq1 heq2
          refine Or.inr ⟨?_, heq1 ▸ hnotin⟩
          refine NoteState.eq_of_fields ?_ ?_ ?_
          · have : st1.active = true := by rw [heq2]; rfl
            rw [ha this]
            rfl
          · rw [hp, heq2]
          · rw [hv, heq2]
      · refine Or.inr ⟨hnew, fun hin => ?_⟩
        exact hnot ((insertNote_mem_fst l rel e.1).mpr (Or.inl hin))

theorem processKeys_existing {ktn : List (Option Nat)} :
    ∀ {ks : List Nat} {l l' : List (Int × NoteState)}, processKeys ktn l ks = some l' →
      (l.map Prod.fst).Nodup →
      ∀ {rel : Int} {st : NoteState}, (rel, st) ∈ l →
        ∃ st', (rel, st') ∈ l' ∧ st'.volume = st.volume ∧ st'.phase = st.phase ∧
          (st.active = true → st'.active = true) ∧
          ((∃ k ∈ ks, keyMapsTo ktn k rel) → st'.active = true) := by
  intro ks
  induction ks with
  | nil =>
    intro l l' h hnd rel st hmem
    replace h : some l = some l' := h
    injection h with h
    subst h
    refine ⟨st, hmem, rfl, rfl, fun h => h, ?_⟩
    rintro ⟨k, hk, _⟩
    cases hk
  | cons k ks ih =>
    intro l l' h hnd rel st hmem
    simp only [processKeys] at h
    rw [Option.bind_eq_some] at h
    obtain ⟨entry, hent, h⟩ := h
    cases entry with
    | none =>
      replace h : processKeys ktn l ks = some l' := h
      obtain ⟨st', hmem', hv, hp, ha, hpress⟩ := ih h hnd hmem
      refine ⟨st', hmem', hv, hp, ha, ?_⟩
      rintro ⟨k1, hk1, hm⟩
      rcases List.mem_cons.mp hk1 with rfl | hk1
      · exact absurd hm (keyMapsTo_unmapped hent rel)
      · exact hpress ⟨k1, hk1, hm⟩
    | some note =>
      replace h : (i8sub (u8asI8 note) MIDI_OFFSET).bind
          (fun r0 => processKeys ktn (insertNote l r0) ks) = some l' := h
      rw [Option.bind_eq_some] at h
      obtain ⟨rel0, hrel0, h⟩ := h
      have hmem2 := insertNote_mem_of_mem hnd hmem rel0
      obtain ⟨st', hmem', hv, hp, ha, hpress⟩ :=
        ih h (insertNote_nodup hnd rel0) hmem2
      have hk := keyMapsTo_iff hent hrel0
      by_cases hreq : rel = rel0
      · rw [if_pos hreq] at hv hp ha
        refine ⟨st', hmem', hv, hp, fun _ => ha rfl, fun _ => ha rfl⟩
      · rw [if_neg hreq] at hv hp ha
        refine ⟨st', hmem', hv, hp, ha, ?_⟩
        rintro ⟨k1, hk1, hm⟩
        rcases List.mem_cons.mp hk1 with rfl | hk1
        · exact absurd ((hk rel).mp hm) hreq
        · exact hpress ⟨k1, hk1, hm⟩

theorem consistent_pressed_active {ktn : List (Option Nat)} {ntk : List (List Nat)}
    {keys : List Nat} {k : Nat} {rel : Int} {b : Bool}
    (hc : keyConsistent ktn ntk keys) (hk : k ∈ keys) (hmap : keyMapsTo ktn k rel)
    (hact : noteActive ntk keys rel = some b) : b = true := by
  obtain ⟨s, row, hs, hrow, hkrow⟩ := hc k hk rel hmap
  unfold noteActive at hact
  rw [hs, Option.some_bind, hrow, Option.map_some'] at hact
  injection hact with hact
  rw [← hact, List.any_eq_true]
  refine ⟨k, hkrow, ?_⟩
  simpa using hk

theorem exConsistent : keyConsistent exKtn exNtk [10] := by
  intro k hk rel hmap
  rw [List.mem_singleton] at hk
  subst hk
  have h := (keyMapsTo_iff
      (by decide : idxLookup exKtn ((10 : Nat) : Int) = some (some 60))
      (by decide : i8sub (u8asI8 60) MIDI_OFFSET = some (-9)) rel).mp hmap
  subst h
  exact ⟨60, [10], by decide, by decide, by decide⟩

/-- C4 (confirmed): a note-state entry is removed by update_keys exactly on
the call where its recomputed active flag is false and its stored volume is
exactly 0, never earlier; and a note whose mapped (or aliased) key is pressed
again while it is still fading out has active set back to true, stays in the
map and keeps its phase untouched. -/
theorem C4_removal_timing (s : Notes) (keys : List Nat) (s2 : Notes)
    (rel : Int) (st : NoteState) (act : Bool)
    (hnd : (s.notes.map Prod.fst).Nodup)
    (hcons : keyConsistent s.key_to_note s.note_to_key keys)
    (hmem : (rel, st) ∈ s.notes) (hvol : 0 ≤ st.volume)
    (hact : noteActive s.note_to_key keys rel = some act)
    (hup : update_keys s keys = some s2) :
    (rel ∉ s2.notes.map Prod.fst ↔ (act = false ∧ st.volume = 0))
    ∧ ((0 < st.volume ∧ ∃ k ∈ keys, keyMapsTo s.key_to_note k rel) →
        ∃ st', (rel, st') ∈ s2.notes ∧ st'.active = true ∧ st'.phase = st.phase) := by
  unfold update_keys at hup
  rw [Option.bind_eq_some] at hup
  obtain ⟨l, hr, hup⟩ := hup
  rw [Option.map_eq_some'] at hup
  obtain ⟨l2, hp, hup⟩ := hup
  have hs2 : s2.notes = l2 := by rw [← hup]
  constructor
  · rw [hs2]
    constructor
    · intro hno
      by_contra hcon
      have hkeep : act = true ∨ 0 < st.volume := by
        rcases Bool.eq_false_or_eq_true act with ha | ha
        · exact Or.inl ha
        · right
          rcases lt_or_eq_of_le hvol with h2 | h2
          · exact h2
          · exact absurd ⟨ha, h2.symm⟩ hcon
      have hin : (rel, { st with active := act }) ∈ l :=
        retainNotes_keep hr hmem hact hkeep
      exact hno ((processKeys_mem_fst hp rel).mpr
        (Or.inl (List.mem_map.mpr ⟨_, hin, rfl⟩)))
    · rintro ⟨hfalse, hzero⟩ hin
      rw [processKeys_mem_fst hp rel] at hin
      rcases hin with hin | ⟨k, hk, hm⟩
      · rw [List.mem_map] at hin
        obtain ⟨e, hel, hfst⟩ := hin
        obtain ⟨st1, b1, hm1, hact1, hval1, hcond1⟩ := retainNotes_mem hr e hel
        rw [hfst] at hm1 hact1
        have heq1 : st1 = st := assoc_unique hnd hm1 hmem
        subst heq1
        have hab : act = b1 := by
          rw [hact] at hact1
          exact Option.some.inj hact1
        rcases hcond1 with hc | hc
        · have hft : (false : Bool) = true := by rw [← hfalse, hab, hc]
          cases hft
        · rw [hzero] at hc
          exact absurd hc (lt_irrefl 0)
      · have hat : act = true := consistent_pressed_active hcons hk hm hact
        rw [hfalse] at hat
        cases hat
  · rintro ⟨hpos, hkey⟩
    have hin : (rel, { st with active := act }) ∈ l :=
      retainNotes_keep hr hmem hact (Or.inr hpos)
    have hndl : (l.map Prod.fst).Nodup := retainNotes_nodup hr hnd
    obtain ⟨st', hmem', hv, hph, ha, hpress⟩ := processKeys_existing hp hndl hin
    refine ⟨st', by rw [hs2]; exact hmem', hpress hkey, by rw [hph]⟩

/-- Witness for C4: in exFading, the fading note -9 (volume 1/4 > 0) has its
key 10 pressed again; it is not removed, active is set back to true and the
phase 5 is preserved. -/
theorem C4_removal_timing_witness :
    ((-9 : Int) ∉ exC4res.notes.map Prod.fst ↔ (true = false ∧ (1 : ℚ) = 0))
    ∧ ((0 < (1 : ℚ) ∧ ∃ k ∈ [10], keyMapsTo exFading.key_to_note k (-9)) →
        ∃ st', ((-9 : Int), st') ∈ exC4res.notes ∧ st'.active = true ∧ st'.phase = 5) :=
  C4_removal_timing exFading [10] exC4res (-9) (NoteState.mk false 5 1) true
    (by decide) exConsistent (by decide) (by decide) (by decide) (by decide)

/-- C10 (confirmed): update_keys only changes each entry's active flag and the
set of entries: every entry present after the call either keeps exactly the
volume and phase of the entry it had before the call, or is a freshly
inserted NoteState::new (active = true, volume = 0, phase = 0) for a relative
note that had no entry before. -/
theorem C10_update_keys_frame (s : Notes) (keys : List Nat) (s2 : Notes)
    (hnd : (s.notes.map Prod.fst).Nodup)
    (hcons : keyConsistent s.key_to_note s.note_to_key keys)
    (hup : update_keys s keys = some s2) :
    ∀ e ∈ s2.notes,
      (∀ st, (e.1, st) ∈ s.notes → e.2.volume = st.volume ∧ e.2.phase = st.phase)
      ∧ (e.1 ∉ s.notes.map Prod.fst → e.2 = NoteState.new) := by
  unfold update_keys at hup
  rw [Option.bind_eq_some] at hup
  obtain ⟨l, hr, hup⟩ := hup
  rw [Option.map_eq_some'] at hup
  obtain ⟨l2, hp, hup⟩ := hup
  have hs2 : s2.notes = l2 := by rw [← hup]
  rw [hs2]
  intro e he
  rcases processKeys_mem hp e he with ⟨st1, hst1, hv, hph, ha⟩ | ⟨hnew, hnot⟩
  · obtain ⟨st0, b0, hm0, hact0, hval0, hcond0⟩ := retainNotes_mem hr _ hst1
    dsimp only at hm0 hact0 hval0
    constructor
    · intro st hmem
      have heq0 : st0 = st := assoc_unique hnd hm0 hmem
      subst heq0
      constructor
      · rw [hv, hval0]
      · rw [hph, hval0]
    · intro hnotin
      exact absurd (List.mem_map.mpr ⟨(e.1, st0), hm0, rfl⟩) hnotin
  · constructor
    · intro st hmem
      exfalso
      obtain ⟨b, hb⟩ := retainNotes_active_some hr (e.1, st) hmem
      dsimp only at hb
      by_cases hcase : b = true ∨ 0 < st.volume
      · exact hnot (List.mem_map.mpr ⟨_, retainNotes_keep hr hmem hb hcase, rfl⟩)
      · have hfst : e.1 ∈ l2.map Prod.fst := List.mem_map.mpr ⟨e, he, rfl⟩
        rw [processKeys_mem_fst hp] at hfst
        rcases hfst with h1 | ⟨k, hk, hm⟩
        · exact hnot h1
        · exact hcase (Or.inl (consistent_pressed_active hcons hk hm hb))
    · intro _
      exact hnew

/-- Witness for C10 on exFading with key 10 pressed: the surviving entry for
relative note -9 keeps volume 1 and phase 5 — exactly the fields it had
before the call. -/
theorem C10_update_keys_frame_witness :
    (NoteState.mk true 5 1).volume = (NoteState.mk false 5 1).volume
    ∧ (NoteState.mk true 5 1).phase = (NoteState.mk false 5 1).phase :=
  (C10_update_keys_frame exFading [10] exC4res (by decide) exConsistent (by decide)
      ((-9 : Int), NoteState.mk true 5 1) (by decide)).1 (NoteState.mk false 5 1) (by decide)

/-! ## Lemmas about the mapping builder -/

theorem except_bind_ok {ε α β : Type} {x : Except ε α} {f : α → Except ε β} {b : β} :
    x.bind f = .ok b ↔ ∃ a, x = .ok a ∧ f a = .ok b := by
  cases x <;> simp [Except.bind]

theorem except_bind_error {ε α β : Type} {x : Except ε α} {f : α → Except ε β} {e : ε} :
    x.bind f = .error e ↔ x = .error e ∨ ∃ a, x = .ok a ∧ f a = .error e := by
  cases x <;> simp [Except.bind]

theorem except_map_ok {ε α β : Type} {x : Except ε α} {f : α → β} {b : β} :
    x.map f = .ok b ↔ ∃ a, x = .ok a ∧ f a = b := by
  cases x <;> simp [Except.map]

theorem except_map_error {ε α β : Type} {x : Except ε α} {f : α → β} {e : ε} :
    x.map f = .error e ↔ x = .error e := by
  cases x <;> simp [Except.map]

theorem exceptOfOption_ok {ε α : Type} {e : ε} {o : Option α} {a : α} :
    exceptOfOption e o = .ok a ↔ o = some a := by
  cases o <;> simp [exceptOfOption]

theorem exceptOfOption_error {ε α : Type} {e e2 : ε} {o : Option α} :
    exceptOfOption e o = .error e2 ↔ o = none ∧ e2 = e := by
  cases o <;> simp [exceptOfOption, eq_comm]

theorem idxSetN_some {α : Type} :
    ∀ {l : List α} {n : Nat} {a : α} {l2 : List α}, idxSetN l n a = some l2 →
      l2.length = l.length ∧ ∀ m, l2.get? m = if m = n then some a else l.get? m := by
  intro l
  induction l with
  | nil => intro n a l2 h; cases h
  | cons x xs ih =>
    intro n a l2 h
    cases n with
    | zero =>
      replace h : some (a :: xs) = some l2 := h
      injection h with h
      subst h
      refine ⟨by simp, fun m => ?_⟩
      cases m with
      | zero => simp
      | succ m => simp
    | succ n =>
      replace h : (idxSetN xs n a).map (x :: ·) = some l2 := h
      rw [Option.map_eq_some'] at h
      obtain ⟨r, hr, h⟩ := h
      subst h
      obtain ⟨hlen, hget⟩ := ih hr
      refine ⟨by simp [hlen], fun m => ?_⟩
      cases m with
      | zero => simp
      | succ m =>
        rw [List.get?_cons_succ, List.get?_cons_succ, hget m]
        by_cases hm : m = n
        · rw [if_pos hm, if_pos (by rw [hm])]
        · rw [if_neg hm, if_neg (fun hc => hm (Nat.succ.inj hc))]

theorem idxSetN_isSome {α : Type} :
    ∀ {l : List α} {n : Nat} (a : α), n < l.length → ∃ l2, idxSetN l n a = some l2 := by
  intro l
  induction l with
  | nil => intro n a h; exact absurd h (Nat.not_lt_zero n)
  | cons x xs ih =>
    intro n a h
    cases n with
    | zero => exact ⟨a :: xs, rfl⟩
    | succ n =>
      obtain ⟨r, hr⟩ := ih a (Nat.lt_of_succ_lt_succ h)
      exact ⟨x :: r, by simp [idxSetN, hr]⟩

theorem pushAt_some {l : List (List Nat)} {p kc : Nat} {l2 : List (List Nat)}
    (h : pushAt l p kc = some l2) :
    l2.length = l.length ∧ p < l.length ∧
      ∀ q, l2.get? q = if q = p then (l.get? p).map (· ++ [kc]) else l.get? q := by
  unfold pushAt at h
  rw [Option.bind_eq_some] at h
  obtain ⟨cur, hcur, h⟩ := h
  obtain ⟨hlen, hget⟩ := idxSetN_some h
  refine ⟨hlen, ?_, fun q => ?_⟩
  · by_contra hc
    rw [not_lt, ← List.get?_eq_none] at hc
    rw [hc] at hcur
    cases hcur
  · rw [hget q, hcur]
    by_cases hq : q = p
    · rw [if_pos hq, if_pos hq, Option.map_some']
    · rw [if_neg hq, if_neg hq]

theorem pushAt_isSome {l : List (List Nat)} {p : Nat} (kc : Nat) (h : p < l.length) :
    ∃ l2, pushAt l p kc = some l2 := by
  cases hg : l.get? p with
  | none =>
    rw [List.get?_eq_none] at hg
    omega
  | some cur =>
    obtain ⟨l2, hl2⟩ := idxSetN_isSome (cur ++ [kc]) h
    exact ⟨l2, by unfold pushAt; rw [hg, Option.some_bind]; exact hl2⟩

theorem collect_mem :
    ∀ {ktn : List (Option Nat)} {kc p j : Nat},
      j ∈ collect kc ktn p ↔ ∃ i, j = kc + i ∧ ktn.get? i = some (some p) := by
  intro ktn
  induction ktn with
  | nil =>
    intro kc p j
    simp [collect]
  | cons x rest ih =>
    intro kc p j
    cases x with
    | none =>
      rw [show collect kc (none :: rest) p = collect (kc + 1) rest p from rfl, ih]
      constructor
      · rintro ⟨i, rfl, hi⟩
        exact ⟨i + 1, by omega, by simpa using hi⟩
      · rintro ⟨i, rfl, hi⟩
        cases i with
        | zero => simp at hi
        | succ i => exact ⟨i, by omega, by simpa using hi⟩
    | some q =>
      by_cases hq : q = p
      · subst hq
        rw [show collect kc (some q :: rest) q = kc :: collect (kc + 1) rest q by
          simp [collect], List.mem_cons, ih]
        constructor
        · rintro (rfl | ⟨i, rfl, hi⟩)
          · exact ⟨0, by omega, by simp⟩
          · exact ⟨i + 1, by omega, by simpa using hi⟩
        · rintro ⟨i, rfl, hi⟩
          cases i with
          | zero => exact Or.inl (by omega)
          | succ i => exact Or.inr ⟨i, by omega, by simpa using hi⟩
      · rw [show collect kc (some q :: rest) p = collect (kc + 1) rest p by
          simp [collect, hq], ih]
        constructor
        · rintro ⟨i, rfl, hi⟩
          exact ⟨i + 1, by omega, by simpa using hi⟩
        · rintro ⟨i, rfl, hi⟩
          cases i with
          | zero =>
            rw [List.get?_cons_zero] at hi
            injection hi with hi
            injection hi with hi
            exact absurd hi hq
          | succ i => exact ⟨i, by omega, by simpa using hi⟩

theorem buildNTKFrom_some :
    ∀ {ktn : List (Option Nat)} {kc : Nat} {acc res : List (List Nat)},
      buildNTKFrom kc ktn acc = some res →
      res.length = acc.length ∧
      ∀ p, res.get? p = (acc.get? p).map fun cur => cur ++ collect kc ktn p := by
  intro ktn
  induction ktn with
  | nil =>
    intro kc acc res h
    replace h : some acc = some res := h
    injection h with h
    subst h
    refine ⟨rfl, fun p => ?_⟩
    cases acc.get? p <;> simp [collect]
  | cons x rest ih =>
    intro kc acc res h
    cases x with
    | none =>
      replace h : buildNTKFrom (kc + 1) rest acc = some res := h
      obtain ⟨hlen, hget⟩ := ih h
      exact ⟨hlen, fun p => by rw [hget p]; rfl⟩
    | some q =>
      replace h : (pushAt acc q kc).bind (fun acc2 => buildNTKFrom (kc + 1) rest acc2)
          = some res := h
      rw [Option.bind_eq_some] at h
      obtain ⟨acc2, hpush, h⟩ := h
      obtain ⟨hlen2, hget2⟩ := ih h
      obtain ⟨hlen1, hplt, hget1⟩ := pushAt_some hpush
      refine ⟨by rw [hlen2, hlen1], fun p => ?_⟩
      rw [hget2 p, hget1 p]
      by_cases hp : p = q
      · subst hp
        rw [if_pos rfl]
        cases acc.get? p with
        | none => rfl
        | some cur =>
          rw [Option.map_some', Option.map_some', Option.map_some']
          rw [show collect kc (some p :: rest) p = kc :: collect (kc + 1) rest p by
            simp [collect]]
          rw [List.append_assoc]
          rfl
      · rw [if_neg hp]
        have hqp : ¬ q = p := fun h2 => hp h2.symm
        rw [show collect kc (some q :: rest) p = collect (kc + 1) rest p by
          simp [collect, hqp]]

theorem buildNTKFrom_ok_range :
    ∀ {ktn : List (Option Nat)} {kc : Nat} {acc res : List (List Nat)},
      buildNTKFrom kc ktn acc = some res →
      ∀ i p, ktn.get? i = some (some p) → p < acc.length := by
  intro ktn
  induction ktn with
  | nil =>
    intro kc acc res h i p hi
    simp at hi
  | cons x rest ih =>
    intro kc acc res h i p hi
    cases x with
    | none =>
      replace h : buildNTKFrom (kc + 1) rest acc = some res := h
      cases i with
      | zero => simp at hi
      | succ i => exact ih h i p (by simpa using hi)
    | some q =>
      replace h : (pushAt acc q kc).bind (fun acc2 => buildNTKFrom (kc + 1) rest acc2)
          = some res := h
      rw [Option.bind_eq_some] at h
      obtain ⟨acc2, hpush, h⟩ := h
      obtain ⟨hlen, hqlt, _⟩ := pushAt_some hpush
      cases i with
      | zero =>
        rw [List.get?_cons_zero] at hi
        injection hi with hi
        injection hi with hi
        subst hi
        exact hqlt
      | succ i =>
        have hlt := ih h i p (by simpa using hi)
        rwa [hlen] at hlt

theorem buildKeyToNote_ok_length {parse : String → Option Nat} :
    ∀ {cfg : List (String × Option Int)} {acc res : List (Option Nat)},
      buildKeyToNote parse cfg acc = .ok res → res.length = acc.length := by
  intro cfg
  induction cfg with
  | nil =>
    intro acc res h
    replace h : (Except.ok acc : Except GenErr (List (Option Nat))) = .ok res := h
    injection h with h
    subst h
    rfl
  | cons e rest ih =>
    intro acc res h
    obtain ⟨name, note⟩ := e
    replace h : (exceptOfOption GenErr.config (parse name)).bind
        (fun kc => (exceptOfOption GenErr.oob (idxSetN acc kc (note.map Int.toNat))).bind
          fun acc2 => buildKeyToNote parse rest acc2) = .ok res := h
    rw [except_bind_ok] at h
    obtain ⟨kc, hkc, h⟩ := h
    rw [except_bind_ok] at h
    obtain ⟨acc2, hset, h⟩ := h
    rw [exceptOfOption_ok] at hset
    obtain ⟨hlen, _⟩ := idxSetN_some hset
    rw [ih h, hlen]

theorem buildKeyToNote_config_iff {parse : String → Option Nat}
    (hparse : ∀ s c, parse s = some c → c < midiNoteMax) :
    ∀ {cfg : List (String × Option Int)} {acc : List (Option Nat)},
      acc.length = midiNoteMax →
      (buildKeyToNote parse cfg acc = .error .config ↔ ∃ e ∈ cfg, parse e.1 = none) := by
  intro cfg
  induction cfg with
  | nil =>
    intro acc hlen
    constructor
    · intro h
      replace h : (Except.ok acc : Except GenErr (List (Option Nat))) = .error .config := h
      cases h
    · rintro ⟨e, he, _⟩
      cases he
  | cons e rest ih =>
    intro acc hlen
    obtain ⟨name, note⟩ := e
    have hexp : buildKeyToNote parse ((name, note) :: rest) acc
        = (exceptOfOption GenErr.config (parse name)).bind
            (fun kc => (exceptOfOption GenErr.oob (idxSetN acc kc (note.map Int.toNat))).bind
              fun acc2 => buildKeyToNote parse rest acc2) := rfl
    rw [hexp, except_bind_error]
    constructor
    · rintro (h | ⟨kc, hkc, h⟩)
      · rw [exceptOfOption_error] at h
        exact ⟨(name, note), List.mem_cons_self _ _, h.1⟩
      · rw [exceptOfOption_ok] at hkc
        rw [except_bind_error] at h
        rcases h with h | ⟨acc2, hset, h⟩
        · rw [exceptOfOption_error] at h
          cases h.2
        · rw [exceptOfOption_ok] at hset
          obtain ⟨hlen2, _⟩ := idxSetN_some hset
          obtain ⟨e2, he2, hp2⟩ := (ih (hlen2.trans hlen)).mp h
          exact ⟨e2, List.mem_cons_of_mem _ he2, hp2⟩
    · rintro ⟨e2, he2, hp2⟩
      rcases List.mem_cons.mp he2 with rfl | he2
      · left
        rw [exceptOfOption_error]
        exact ⟨hp2, rfl⟩
      · cases hp : parse name with
        | none =>
          left
          rw [exceptOfOption_error]
          exact ⟨rfl, rfl⟩
        | some kc =>
          right
          refine ⟨kc, by rw [exceptOfOption_ok], ?_⟩
          obtain ⟨acc2, hset⟩ := idxSetN_isSome (note.map Int.toNat)
            (by rw [hlen]; exact hparse name kc hp)
          rw [except_bind_error]
          right
          refine ⟨acc2, by rw [exceptOfOption_ok]; exact hset, ?_⟩
          obtain ⟨hlen2, _⟩ := idxSetN_some hset
          exact (ih (hlen2.trans hlen)).mpr ⟨e2, he2, hp2⟩

theorem serdeOk_false_iff {cfg : List (String × Option Int)} :
    serdeOk cfg = false ↔ ∃ e ∈ cfg, ∃ v, e.2 = some v ∧ (v < 0 ∨ 255 < v) := by
  rw [← Bool.not_eq_true, serdeOk, List.all_eq_true]
  push_neg
  constructor
  · rintro ⟨e, he, hv⟩
    refine ⟨e, he, ?_⟩
    cases hev : e.2 with
    | none => rw [hev] at hv; simp at hv
    | some v =>
      rw [hev] at hv
      replace hv : ¬((decide (0 ≤ v) && decide (v ≤ 255)) = true) := hv
      simp only [Bool.and_eq_true, decide_eq_true_eq, not_and_or, not_le] at hv
      exact ⟨v, rfl, hv⟩
  · rintro ⟨e, he, v, hev, hv⟩
    refine ⟨e, he, ?_⟩
    rw [hev]
    show ¬((decide (0 ≤ v) && decide (v ≤ 255)) = true)
    simp only [Bool.and_eq_true, decide_eq_true_eq, not_and_or, not_le]
    exact hv

theorem get_replicate_some {α : Type} {a : α} :
    ∀ {n p : Nat}, p < n → (List.replicate n a).get? p = some a := by
  intro n
  induction n with
  | zero => intro p h; omega
  | succ n ih =>
    intro p h
    cases p with
    | zero => rfl
    | succ p => exact ih (by omega)

theorem parse0_bound : ∀ s c, parse0 s = some c → c < midiNoteMax := by
  intro s c h
  unfold parse0 at h
  by_cases hs : s = "A"
  · rw [if_pos hs] at h
    injection h with h
    unfold midiNoteMax
    omega
  · rw [if_neg hs] at h
    cases h

/-- C6 (amended): building the tables fails with the recoverable ConfigError
exactly when some key name in the configuration is not a recognized physical
key identifier or some pitch value is outside the representable range of the
MidiNote type, which is u8, 0..=255 (not 0..=127 as the claim states: see
C6_pitch200_accepted). The side condition on parse states that the external
key-code enumeration fits the table, true of device_query. -/
theorem C6_config_error_iff (parse : String → Option Nat)
    (cfg : List (String × Option Int))
    (hparse : ∀ s c, parse s = some c → c < midiNoteMax) :
    generate_maps parse cfg = .error .config ↔
      (∃ e ∈ cfg, ∃ v, e.2 = some v ∧ (v < 0 ∨ 255 < v))
      ∨ (∃ e ∈ cfg, parse e.1 = none) := by
  unfold generate_maps
  cases hs : serdeOk cfg
  · rw [if_neg (by decide)]
    constructor
    · intro _
      exact Or.inl (serdeOk_false_iff.mp hs)
    · intro _
      rfl
  · rw [if_pos rfl]
    have hnoval : ¬ ∃ e ∈ cfg, ∃ v, e.2 = some v ∧ (v < 0 ∨ 255 < v) := by
      intro hcon
      rw [← serdeOk_false_iff, hs] at hcon
      cases hcon
    have hlen : (List.replicate midiNoteMax (none : Option Nat)).length = midiNoteMax := by
      simp
    rw [except_bind_error]
    constructor
    · rintro (h | ⟨ktn, hktn, h⟩)
      · exact Or.inr ((buildKeyToNote_config_iff hparse hlen).mp h)
      · rw [except_map_error, exceptOfOption_error] at h
        cases h.2
    · rintro (h | h)
      · exact absurd h hnoval
      · exact Or.inl ((buildKeyToNote_config_iff hparse hlen).mpr h)

/-- C6 counterexample: a configuration mapping the recognized key A to pitch
200 — outside the claim's 0..=127 — is accepted by generate_maps without any
error, refuting the claimed failure condition. -/
theorem C6_pitch200_accepted :
    exceptIsOk (generate_maps parse0 [("A", some 200)]) = true ∧ (127 : Int) < 200 :=
  ⟨rfl, by decide⟩

/-- Witness for the amended C6 on a configuration with the unrecognized key
name B: building fails with ConfigError, matching the right-hand side. -/
theorem C6_config_error_iff_witness :
    generate_maps parse0 [("B", (some 3 : Option Int))] = .error .config ↔
      (∃ e ∈ [("B", (some 3 : Option Int))], ∃ v, e.2 = some v ∧ (v < 0 ∨ 255 < v))
      ∨ (∃ e ∈ [("B", (some 3 : Option Int))], parse0 e.1 = none) :=
  C6_config_error_iff parse0 [("B", some 3)] parse0_bound

/-- C7 (amended): for every configuration the builder accepts, the two tables
are round-trip consistent — every key k with key_to_note[k] = Some p appears
in note_to_key[p], and every key listed in note_to_key[p] maps back to p —
and both tables have length MidiNote::MAX = 255, covering key codes and
pitches 0..=254 only; the representable pitch 255 has no row (see
C7_sizing_off_by_one). -/
theorem C7_roundtrip (parse : String → Option Nat) (cfg : List (String × Option Int))
    (ktn : List (Option Nat)) (ntk : List (List Nat))
    (h : generate_maps parse cfg = .ok (ktn, ntk)) :
    ktn.length = midiNoteMax ∧ ntk.length = midiNoteMax
    ∧ (∀ k p, ktn.get? k = some (some p) → ∃ row, ntk.get? p = some row ∧ k ∈ row)
    ∧ (∀ p row, ntk.get? p = some row → ∀ k ∈ row, ktn.get? k = some (some p)) := by
  unfold generate_maps at h
  cases hs : serdeOk cfg
  · rw [hs, if_neg (by decide)] at h
    cases h
  · rw [hs, if_pos rfl, except_bind_ok] at h
    obtain ⟨ktn0, hktn, h⟩ := h
    rw [except_map_ok] at h
    obtain ⟨ntk0, hntk, h⟩ := h
    rw [exceptOfOption_ok] at hntk
    injection h with h1 h2
    subst h1
    subst h2
    have hktnlen : ktn0.length = midiNoteMax := by
      rw [buildKeyToNote_ok_length hktn]
      simp
    obtain ⟨hntklen, hget⟩ := buildNTKFrom_some hntk
    have hrange := buildNTKFrom_ok_range hntk
    refine ⟨hktnlen, by rw [hntklen]; simp, ?_, ?_⟩
    · intro k p hk
      have hplt : p < midiNoteMax := by
        have hp2 := hrange k p hk
        simpa using hp2
      refine ⟨collect 0 ktn0 p, ?_, ?_⟩
      · rw [hget p, get_replicate_some hplt, Option.map_some', List.nil_append]
      · rw [collect_mem]
        exact ⟨k, by omega, hk⟩
    · intro p row hrow k hkrow
      rw [hget p] at hrow
      cases hrep : (List.replicate midiNoteMax ([] : List Nat)).get? p with
      | none =>
        rw [hrep] at hrow
        cases hrow
      | some cur =>
        rw [hrep, Option.map_some'] at hrow
        injection hrow with hrow
        subst hrow
        have hcur : cur = [] := List.eq_of_mem_replicate (List.get?_mem hrep)
        subst hcur
        rw [List.nil_append, collect_mem] at hkrow
        obtain ⟨i, hi, hk⟩ := hkrow
        obtain rfl : i = k := by omega
        exact hk

/-- C7 counterexample: the empty configuration is accepted and yields tables
of length exactly 255 = MidiNote::MAX, but the u8 pitch and key-code range is
0..=255: pitch 255 has no note_to_key row (indexing it aborts) and key code
255 has no key_to_note slot, so the tables do not cover the full range of
representable physical key identifiers and pitches. -/
theorem C7_sizing_off_by_one :
    generate_maps parse0 [] = .ok (List.replicate 255 none, List.replicate 255 [])
    ∧ (List.replicate 255 ([] : List Nat)).get? 255 = none
    ∧ ¬ (255 < (List.replicate 255 ([] : List Nat)).length)
    ∧ (List.replicate 255 (none : Option Nat)).get? 255 = none :=
  ⟨rfl, rfl, by simp, rfl⟩

/-- Witness for the amended C7 on the one-entry configuration A ↦ 60: the
builder accepts it, producing exactly the exKtn/exNtk tables, which are
round-trip consistent and of length 255. -/
theorem C7_roundtrip_witness :
    exKtn.length = midiNoteMax ∧ exNtk.length = midiNoteMax
    ∧ (∀ k p, exKtn.get? k = some (some p) → ∃ row, exNtk.get? p = some row ∧ k ∈ row)
    ∧ (∀ p row, exNtk.get? p = some row → ∀ k ∈ row, exKtn.get? k = some (some p)) :=
  C7_roundtrip parse0 [("A", some 60)] exKtn exNtk (by rfl)
